import Mathlib

/-!
Verification of the DQN core of the rlalgs repository.

Shallow embedding of the replay buffer, the exploration schedule, the
one-step TD target, and the target-network synchronization logic found in
rlalgs/dqn/dqn.py and rlalgs/algos/dqn/dqn.py, together with theorems
settling the specification's claims about them.  Machine floats are
modelled as exact rationals; the random draws of numpy are modelled as
explicit index/coin arguments constrained by the library's contract.
-/

/-- Replay buffer state, mirroring the class DQNReplayBuffer of
rlalgs/dqn/dqn.py.  The five parallel numpy arrays (obs_buf, act_buf,
rew_buf, obs_prime_buf, done_buf) always share the same cursor, so they are
modelled as one list of rows of an arbitrary transition type; the
numpy.zeros initialisation corresponds to filling the list with `default`. -/
structure DQNReplayBuffer (α : Type) where
  buf : List α
  ptr : Nat
  size : Nat
  capacity : Nat

namespace DQNReplayBuffer

/-- Constructor of DQNReplayBuffer: arrays of length capacity, zero
filled, with ptr = 0 and size = 0. -/
def init (α : Type) [Inhabited α] (capacity : Nat) : DQNReplayBuffer α :=
  { buf := List.replicate capacity default
    ptr := 0
    size := 0
    capacity := capacity }

/-- Method store of DQNReplayBuffer: write the transition at slot ptr,
then advance ptr = (ptr + 1) % capacity and set size = min (size + 1)
capacity. -/
def store (b : DQNReplayBuffer α) (x : α) : DQNReplayBuffer α :=
  { b with
    buf := b.buf.set b.ptr x
    ptr := (b.ptr + 1) % b.capacity
    size := min (b.size + 1) b.capacity }

/-- Method sample of DQNReplayBuffer: np.random.choice(size, n) yields a
list of drawn indices, each in [0, size); sample returns the corresponding
rows.  The randomness of the draw is externalised into the idxs argument. -/
def sample [Inhabited α] (b : DQNReplayBuffer α) (idxs : List Nat) : List α :=
  idxs.map (fun i => b.buf.getD i default)

end DQNReplayBuffer

/-- Fold of store over a list of transitions: a sequence of store calls. -/
def storeAll [Inhabited α] (b : DQNReplayBuffer α) (ts : List α) : DQNReplayBuffer α :=
  ts.foldl DQNReplayBuffer.store b

/-- Buffer obtained from an empty capacity-c buffer after storing ts. -/
def trainedBuffer (α : Type) [Inhabited α] (c : Nat) (ts : List α) : DQNReplayBuffer α :=
  storeAll (DQNReplayBuffer.init α c) ts

/-- Index of the last store that wrote slot j of a capacity-c buffer,
among the first n stores: the largest k < n with k % c = j. -/
def lastWrite : Nat → Nat → Nat → Nat
  | 0, _, _ => 0
  | n + 1, c, j => if n % c = j then n else lastWrite n c j

theorem lastWrite_lt (c : Nat) :
    ∀ n j, j < min n c → lastWrite n c j < n := by
  intro n
  induction n with
  | zero => intro j h; omega
  | succ n ih =>
    intro j h
    unfold lastWrite
    split
    · omega
    · rename_i hne
      rcases Nat.lt_or_ge n c with hlt | hge
      · have hmod : n % c = n := Nat.mod_eq_of_lt hlt
        have : j < n := by omega
        exact Nat.lt_succ_of_lt (ih j (by omega))
      · exact Nat.lt_succ_of_lt (ih j (by omega))

theorem lastWrite_mod (c : Nat) :
    ∀ n j, j < min n c → lastWrite n c j % c = j := by
  intro n
  induction n with
  | zero => intro j h; omega
  | succ n ih =>
    intro j h
    unfold lastWrite
    split
    · assumption
    · rename_i hne
      rcases Nat.lt_or_ge n c with hlt | hge
      · have hmod : n % c = n := Nat.mod_eq_of_lt hlt
        exact ih j (by omega)
      · exact ih j (by omega)

theorem lastWrite_recent (c : Nat) :
    ∀ n j, 1 ≤ c → j < min n c → n ≤ lastWrite n c j + c := by
  intro n
  induction n with
  | zero => intro j _ h; omega
  | succ n ih =>
    intro j hc h
    unfold lastWrite
    split
    · omega
    · rename_i hne
      have hj : j < min n c := by
        rcases Nat.lt_or_ge n c with hlt | hge
        · have hmod : n % c = n := Nat.mod_eq_of_lt hlt
          omega
        · omega
      have hrec := ih j hc hj
      have hmodlw : lastWrite n c j % c = j := lastWrite_mod c n j hj
      -- equality n = lastWrite + c would force n % c = j, contradiction
      rcases Nat.lt_or_ge n (lastWrite n c j + c) with hlt | hge2
      · omega
      · exfalso
        have heq : n = lastWrite n c j + c := by omega
        have : n % c = j := by
          rw [heq, Nat.add_mod_right]
          exact hmodlw
        exact hne this

/-- Coverage: every store index k in the live window is the last write of
its own slot k % c. -/
theorem lastWrite_of_window (c : Nat) :
    ∀ n k, 1 ≤ c → k < n → n ≤ k + c → lastWrite n c (k % c) = k := by
  intro n
  induction n with
  | zero => intro k _ h; omega
  | succ n ih =>
    intro k hc hk hwin
    unfold lastWrite
    split
    · rename_i heq
      -- n % c = k % c with k ≤ n and n < k + c forces k = n
      by_contra hne
      have hklt : k < n := by omega
      have hmodeq : k % c = n % c := heq.symm
      have hdvd : c ∣ n - k := (Nat.modEq_iff_dvd' (Nat.le_of_lt hklt)).mp hmodeq
      have hpos : 0 < n - k := by omega
      have := Nat.le_of_dvd hpos hdvd
      omega
    · rename_i hne
      have hkn : k < n := by
        rcases Nat.eq_or_lt_of_le (Nat.lt_succ_iff.mp hk) with h | h
        · exact absurd (by rw [h]) hne
        · exact h
      exact ih k hc hkn (by omega)

theorem mem_window_bound (c n j : Nat) (hc : 1 ≤ c) (h : j < min n c) :
    n - min n c ≤ lastWrite n c j := by
  have h1 := lastWrite_recent c n j hc h
  omega

/-- Unfolding equation of lastWrite at a successor store count. -/
theorem lastWrite_succ (n c j : Nat) :
    lastWrite (n + 1) c j = if n % c = j then n else lastWrite n c j := rfl

/-- Helper: getD after set at an in-bounds, equal index. -/
theorem getD_set_self [Inhabited α] (l : List α) (i : Nat) (a : α) (h : i < l.length) :
    (l.set i a).getD i default = a := by
  rw [List.getD_eq_getElem?_getD, List.getElem?_set_eq_of_lt a h]
  rfl

/-- Helper: getD after set at a different index. -/
theorem getD_set_other [Inhabited α] (l : List α) {i j : Nat} (a : α) (h : i ≠ j) :
    (l.set i a).getD j default = l.getD j default := by
  rw [List.getD_eq_getElem?_getD, List.getElem?_set_ne h, ← List.getD_eq_getElem?_getD]

/-- Per-slot characterisation of the buffer after any sequence of stores:
the fields ptr, size, capacity take their closed forms, and slot j holds
the transition written by the last store addressed to it (slots never
written still hold the zero initialisation). -/
theorem storeAll_spec (α : Type) [Inhabited α] (c : Nat) (hc : 1 ≤ c) (ts : List α) :
    (trainedBuffer α c ts).capacity = c ∧
    (trainedBuffer α c ts).buf.length = c ∧
    (trainedBuffer α c ts).ptr = ts.length % c ∧
    (trainedBuffer α c ts).size = min ts.length c ∧
    ∀ j, j < c →
      (trainedBuffer α c ts).buf.getD j default =
        if j < min ts.length c then ts.getD (lastWrite ts.length c j) default
        else default := by
  induction ts using List.reverseRecOn with
  | nil =>
    refine ⟨rfl, by simp [trainedBuffer, storeAll, DQNReplayBuffer.init], by simp [trainedBuffer, storeAll, DQNReplayBuffer.init], by simp [trainedBuffer, storeAll, DQNReplayBuffer.init], ?_⟩
    intro j hj
    have hcond : ¬ j < min (List.length ([] : List α)) c := by simp
    rw [if_neg hcond]
    simp only [trainedBuffer, storeAll, DQNReplayBuffer.init, List.foldl_nil]
    rw [List.getD_eq_getElem?_getD, List.getElem?_replicate, if_pos hj]
    rfl
  | append_singleton l a ih =>
    obtain ⟨ihcap, ihlen, ihptr, ihsize, ihslot⟩ := ih
    have hstep : trainedBuffer α c (l ++ [a]) =
        DQNReplayBuffer.store (trainedBuffer α c l) a := by
      simp [trainedBuffer, storeAll, List.foldl_append]
    set b := trainedBuffer α c l with hb
    have hn : (l ++ [a]).length = l.length + 1 := by simp
    refine ⟨?_, ?_, ?_, ?_, ?_⟩
    · rw [hstep]; simpa [DQNReplayBuffer.store] using ihcap
    · rw [hstep]; simpa [DQNReplayBuffer.store, List.length_set] using ihlen
    · rw [hstep]
      simp only [DQNReplayBuffer.store, ihcap, ihptr, hn]
      exact Nat.mod_add_mod l.length c 1
    · rw [hstep]
      simp only [DQNReplayBuffer.store, ihcap, ihsize, hn]
      omega
    · intro j hj
      rw [hstep]
      simp only [DQNReplayBuffer.store, ihcap, ihptr]
      rcases Decidable.em (l.length % c = j) with heq | hne
      · -- slot just written
        have hjlt : j < b.buf.length := by rw [ihlen]; exact hj
        rw [← heq, getD_set_self b.buf (l.length % c) a (by rw [ihlen]; exact Nat.mod_lt _ (by omega))]
        have hcond : l.length % c < min (l ++ [a]).length c := by
          have h1 : l.length % c < c := Nat.mod_lt _ (by omega)
          have h2 : l.length % c ≤ l.length := Nat.mod_le _ _
          rw [hn]; omega
        rw [if_pos hcond]
        have hlw : lastWrite (l ++ [a]).length c (l.length % c) = l.length := by
          rw [hn, lastWrite_succ, if_pos rfl]
        rw [hlw, List.getD_eq_getElem?_getD, List.getElem?_concat_length]
        rfl
      · -- slot untouched by this store
        rw [getD_set_other b.buf a hne, ihslot j hj]
        have hlw : lastWrite (l ++ [a]).length c j = lastWrite l.length c j := by
          rw [hn, lastWrite_succ, if_neg hne]
        have hcondiff : (j < min (l ++ [a]).length c) ↔ (j < min l.length c) := by
          rw [hn]
          constructor
          · intro h
            rcases Nat.lt_or_ge l.length c with hlt | hge
            · have hmod : l.length % c = l.length := Nat.mod_eq_of_lt hlt
              omega
            · omega
          · intro h; omega
        rcases Decidable.em (j < min l.length c) with hin | hout
        · rw [if_pos hin, if_pos (hcondiff.mpr hin), hlw]
          have hlt : lastWrite l.length c j < l.length := lastWrite_lt c l.length j hin
          rw [List.getD_eq_getElem?_getD, List.getD_eq_getElem?_getD,
            List.getElem?_append_left hlt]
        · rw [if_neg hout, if_neg (by rw [hcondiff]; exact hout)]

/-- Specification of the circular buffer after a sequence of stores:
closed forms for ptr and size, their bounds, and the fact that the
occupied slots hold exactly the min(number of stores, capacity) most
recently stored transitions (each occupied slot holds some transition of
the live window, and every transition of the live window is held at slot
k % c). -/
def ReplayBufferSpec (α : Type) [Inhabited α] (c : Nat) (ts : List α) : Prop :=
  (trainedBuffer α c ts).ptr = ts.length % c ∧
  (trainedBuffer α c ts).size = min ts.length c ∧
  (trainedBuffer α c ts).ptr < c ∧
  (trainedBuffer α c ts).size ≤ c ∧
  (∀ j, j < (trainedBuffer α c ts).size →
    ∃ k, ts.length - min ts.length c ≤ k ∧ k < ts.length ∧ k % c = j ∧
      (trainedBuffer α c ts).buf.getD j default = ts.getD k default) ∧
  (∀ k, ts.length - min ts.length c ≤ k → k < ts.length →
    (trainedBuffer α c ts).buf.getD (k % c) default = ts.getD k default)

/-- C1: for every capacity c ≥ 1 and every sequence of store calls, the
buffer holds exactly the min(number of stores, c) most recently stored
transitions with the oldest overwritten once full, ptr = stores % c and
size = min(stores, c) with 0 ≤ ptr < c and 0 ≤ size ≤ c; moreover the
concrete scenario: storing rewards 1..6 into a capacity-4 buffer leaves
slots [5, 6, 3, 4] (the set of held rewards is 3,4,5,6), ptr = 2, size = 4. -/
theorem replay_buffer_circular_invariant (α : Type) [Inhabited α] (c : Nat)
    (hc : 1 ≤ c) (ts : List α) :
    ReplayBufferSpec α c ts ∧
    (trainedBuffer ℤ 4 [1, 2, 3, 4, 5, 6]).buf = [5, 6, 3, 4] ∧
    (trainedBuffer ℤ 4 [1, 2, 3, 4, 5, 6]).ptr = 2 ∧
    (trainedBuffer ℤ 4 [1, 2, 3, 4, 5, 6]).size = 4 := by
  obtain ⟨hcap, hlen, hptr, hsize, hslot⟩ := storeAll_spec α c hc ts
  refine ⟨⟨hptr, hsize, ?_, ?_, ?_, ?_⟩, by decide, by decide, by decide⟩
  · rw [hptr]; exact Nat.mod_lt _ (by omega)
  · rw [hsize]; omega
  · intro j hj
    rw [hsize] at hj
    have hjc : j < c := by omega
    refine ⟨lastWrite ts.length c j, mem_window_bound c ts.length j hc hj,
      lastWrite_lt c ts.length j hj, lastWrite_mod c ts.length j hj, ?_⟩
    rw [hslot j hjc, if_pos hj]
  · intro k hk1 hk2
    have hwin : ts.length ≤ k + c := by omega
    have hkc : k % c < c := Nat.mod_lt _ (by omega)
    have hcond : k % c < min ts.length c := by
      have : k % c ≤ k := Nat.mod_le _ _
      omega
    rw [hslot (k % c) hkc, if_pos hcond, lastWrite_of_window c ts.length k hc hk2 hwin]

/-- Witness for C1, applied at a concrete capacity and store sequence. -/
theorem replay_buffer_circular_invariant_applied :
    1 ≤ 2 ∧
    (ReplayBufferSpec ℤ 2 [10, 20, 30] ∧
      (trainedBuffer ℤ 4 [1, 2, 3, 4, 5, 6]).buf = [5, 6, 3, 4] ∧
      (trainedBuffer ℤ 4 [1, 2, 3, 4, 5, 6]).ptr = 2 ∧
      (trainedBuffer ℤ 4 [1, 2, 3, 4, 5, 6]).size = 4) :=
  ⟨by decide, replay_buffer_circular_invariant ℤ 2 (by decide) [10, 20, 30]⟩

/-- Model of np.linspace(start, stop, num) with the default endpoint
behaviour, in exact arithmetic: num evenly spaced points from start to
stop inclusive, the i-th being start + (stop - start) * i / (num - 1).
For num = 1 numpy returns [start]; the rational convention x / 0 = 0
reproduces that case. -/
def linspace (start stop : ℚ) (num : Nat) : List ℚ :=
  (List.range num).map
    (fun i : Nat => start + (stop - start) * (i : ℚ) / ((num - 1 : Nat) : ℚ))

/-- Epsilon used by get_action of rlalgs/algos/dqn/dqn.py at global step
t: eps = epsilon if t >= start_steps else epsilon_schedule[t], where
epsilon_schedule = np.linspace(1, epsilon, start_steps). -/
def dqnEpsilon (epsilon : ℚ) (start_steps t : Nat) : ℚ :=
  if start_steps ≤ t then epsilon else (linspace 1 epsilon start_steps).getD t 0

/-- Closed form of an in-range linspace entry. -/
theorem linspace_getD (a b : ℚ) (num t : Nat) (h : t < num) :
    (linspace a b num).getD t 0 = a + (b - a) * t / ((num - 1 : Nat) : ℚ) := by
  rw [linspace, List.getD_eq_getElem?_getD, List.getElem?_map, List.getElem?_range h]
  rfl

/-- C3 counterexample: the spec formula 1 + (epsilon_min - 1) *
min(step, start_steps) / start_steps does not match the code at
start_steps = 100, epsilon_min = 1/20, step 50: the code divides by
start_steps - 1 = 99 (np.linspace endpoint convention), giving 103/198,
not the claimed 21/40. -/
theorem epsilon_formula_counterexample :
    dqnEpsilon (1/20) 100 50 ≠
      1 + ((1/20 : ℚ) - 1) * ((min 50 100 : Nat) : ℚ) / 100 := by
  have h : dqnEpsilon (1/20) 100 50 = 1 + ((1/20 : ℚ) - 1) * (50 : Nat) / ((100 - 1 : Nat) : ℚ) := by
    rw [dqnEpsilon, if_neg (by omega), linspace_getD _ _ _ _ (by omega)]
  rw [h]
  norm_num

/-- C3 amended: the epsilon actually used is epsilon_min once the step
reaches start_steps, and otherwise the linspace entry
1 + (epsilon_min - 1) * step / (start_steps - 1); in the concrete
scenario start_steps = 100, epsilon_min = 1/20, the epsilon at step 50 is
103/198 (about 0.5202, not 0.525) and the epsilon at step 150 is exactly
1/20. -/
theorem epsilon_schedule_closed_form (epsilon : ℚ) (start_steps t : Nat) :
    (start_steps ≤ t → dqnEpsilon epsilon start_steps t = epsilon) ∧
    (t < start_steps → dqnEpsilon epsilon start_steps t =
      1 + (epsilon - 1) * t / ((start_steps - 1 : Nat) : ℚ)) ∧
    dqnEpsilon (1/20) 100 50 = 103/198 ∧
    dqnEpsilon (1/20) 100 150 = 1/20 := by
  refine ⟨?_, ?_, ?_, ?_⟩
  · intro h; rw [dqnEpsilon, if_pos h]
  · intro h; rw [dqnEpsilon, if_neg (by omega), linspace_getD _ _ _ _ h]
  · rw [dqnEpsilon, if_neg (by omega), linspace_getD _ _ _ _ (by omega)]
    norm_num
  · rw [dqnEpsilon, if_pos (by omega)]

/-- Witness for C3, applied at concrete schedule parameters and steps. -/
theorem epsilon_schedule_closed_form_applied :
    dqnEpsilon (37/100) 5 7 = 37/100 ∧
    dqnEpsilon (37/100) 5 2 = 1 + ((37/100 : ℚ) - 1) * (2 : Nat) / ((5 - 1 : Nat) : ℚ) :=
  ⟨(epsilon_schedule_closed_form (37/100) 5 7).1 (by omega),
   (epsilon_schedule_closed_form (37/100) 5 2).2.1 (by omega)⟩

/-- C8: the exploration schedule is monotonically non-increasing in the
step index, the epsilon used at step 0 is exactly 1, and from step
start_steps on (that step included) the epsilon used is exactly
epsilon_min; stated for any configuration with start_steps ≥ 1 and
epsilon_min ≤ 1. -/
theorem epsilon_schedule_monotone (epsilon : ℚ) (start_steps : Nat)
    (hss : 0 < start_steps) (heps : epsilon ≤ 1) :
    dqnEpsilon epsilon start_steps 0 = 1 ∧
    (∀ k, start_steps ≤ k → dqnEpsilon epsilon start_steps k = epsilon) ∧
    (∀ s t, s ≤ t → dqnEpsilon epsilon start_steps t ≤ dqnEpsilon epsilon start_steps s) := by
  have hin : ∀ u, u < start_steps → dqnEpsilon epsilon start_steps u =
      1 + (epsilon - 1) * u / ((start_steps - 1 : Nat) : ℚ) := by
    intro u hu
    rw [dqnEpsilon, if_neg (by omega), linspace_getD _ _ _ _ hu]
  refine ⟨?_, ?_, ?_⟩
  · rw [hin 0 hss]
    simp
  · intro k hk; rw [dqnEpsilon, if_pos hk]
  · intro s t hst
    rcases Nat.lt_or_ge s start_steps with hs | hs
    · rcases Nat.lt_or_ge t start_steps with ht | ht
      · -- both on the linear segment
        rw [hin s hs, hin t ht]
        rcases Nat.eq_or_lt_of_le hss with h1 | h1
        · -- start_steps = 1 forces s = t = 0
          have hs0 : s = 0 := by omega
          have ht0 : t = 0 := by omega
          rw [hs0, ht0]
        · have hd : (0 : ℚ) < ((start_steps - 1 : Nat) : ℚ) := by
            have : 1 ≤ start_steps - 1 := by omega
            exact_mod_cast Nat.lt_of_lt_of_le Nat.zero_lt_one this
          have hmul : (epsilon - 1) * (t : ℚ) ≤ (epsilon - 1) * (s : ℚ) := by
            apply mul_le_mul_of_nonpos_left _ (by linarith)
            exact_mod_cast hst
          have hdiv := (div_le_div_iff_of_pos_right hd).mpr hmul
          linarith [hdiv]
      · -- t past the anneal horizon, s still on the segment
        rw [dqnEpsilon, if_pos ht, hin s hs]
        rcases Nat.eq_or_lt_of_le hss with h1 | h1
        · have hs0 : s = 0 := by omega
          rw [hs0]
          simp
          linarith
        · have hd : (0 : ℚ) < ((start_steps - 1 : Nat) : ℚ) := by
            have : 1 ≤ start_steps - 1 := by omega
            exact_mod_cast Nat.lt_of_lt_of_le Nat.zero_lt_one this
          have hsd : (s : ℚ) / ((start_steps - 1 : Nat) : ℚ) ≤ 1 := by
            rw [div_le_one hd]
            have : s ≤ start_steps - 1 := by omega
            exact_mod_cast this
          have hmul : (epsilon - 1) * 1 ≤ (epsilon - 1) * ((s : ℚ) / ((start_steps - 1 : Nat) : ℚ)) :=
            mul_le_mul_of_nonpos_left hsd (by linarith)
          rw [mul_div_assoc]
          linarith
    · -- both past the horizon
      have ht : start_steps ≤ t := by omega
      rw [dqnEpsilon, if_pos ht, dqnEpsilon, if_pos hs]

/-- Witness for C8, applied at a concrete configuration. -/
theorem epsilon_schedule_monotone_applied :
    dqnEpsilon (1/20) 100 0 = 1 ∧
    dqnEpsilon (1/20) 100 100 = 1/20 ∧
    dqnEpsilon (1/20) 100 60 ≤ dqnEpsilon (1/20) 100 40 :=
  ⟨(epsilon_schedule_monotone (1/20) 100 (by omega) (by norm_num)).1,
   (epsilon_schedule_monotone (1/20) 100 (by omega) (by norm_num)).2.1 100 (by omega),
   (epsilon_schedule_monotone (1/20) 100 (by omega) (by norm_num)).2.2 40 60 (by omega)⟩

/-- One-step TD target, the expression target = rew_ph +
gamma * (1 - done_ph) * q_pi_targ appearing identically at
rlalgs/algos/dqn/dqn.py line 95 and rlalgs/dqn/dqn.py line 122.  The done
flag is stored in the buffer as a float (0 or 1);  qPiTarg is the target
network's maximal Q value at the next observation. -/
def tdTarget (gamma rew done qPiTarg : ℚ) : ℚ :=
  rew + gamma * (1 - done) * qPiTarg

/-- Float encoding of the done flag stored in done_buf. -/
def doneFloat (d : Bool) : ℚ := if d then 1 else 0

/-- C2: the computed TD target equals reward + gamma * (1 - done) * max
Q_target over next actions, and for a terminal transition (done = true,
stored as 1.0) it equals the reward exactly, whatever the target network
outputs. -/
theorem td_target_terminal_eq_reward :
    (∀ gamma rew done qPiTarg : ℚ,
      tdTarget gamma rew done qPiTarg = rew + gamma * (1 - done) * qPiTarg) ∧
    (∀ gamma rew qPiTarg : ℚ, tdTarget gamma rew (doneFloat true) qPiTarg = rew) ∧
    (∀ gamma rew qPiTarg : ℚ, tdTarget gamma rew 1 qPiTarg = rew) := by
  refine ⟨fun _ _ _ _ => rfl, ?_, ?_⟩ <;>
    intro gamma rew qPiTarg <;> simp [tdTarget, doneFloat]

/-- Polyak target update of rlalgs/dqn/dqn.py lines 132-135: every target
variable is assigned polyak * v_targ + (1 - polyak) * v_main, zipping the
main and target variable lists.  Each parameter tensor is flattened into
the list of its entries. -/
def target_update (polyak : ℚ) (mains targs : List ℚ) : List ℚ :=
  List.zipWith (fun m t => polyak * t + (1 - polyak) * m) mains targs

/-- Elementwise closed form of target_update, by induction over the
zipped lists. -/
theorem target_update_getD (polyak : ℚ) :
    ∀ (mains targs : List ℚ), mains.length = targs.length →
      ∀ i, i < mains.length →
        (target_update polyak mains targs).getD i 0 =
          polyak * targs.getD i 0 + (1 - polyak) * mains.getD i 0 := by
  intro mains
  induction mains with
  | nil => intro targs _ i hi; simp at hi
  | cons m ms ih =>
    intro targs hlen i hi
    cases targs with
    | nil => simp at hlen
    | cons t ts =>
      cases i with
      | zero => rfl
      | succ i =>
        have hlen2 : ms.length = ts.length := by simpa using hlen
        have hi2 : i < ms.length := by simpa using hi
        simpa [target_update] using ih ts hlen2 i hi2

/-- C5: under the Polyak policy (polyak > 0), a scheduled target update
replaces every target parameter elementwise by
polyak * old_target + (1 - polyak) * main, exactly. -/
theorem polyak_update_elementwise (polyak : ℚ) (hp : 0 < polyak)
    (mains targs : List ℚ) (hlen : mains.length = targs.length) :
    (target_update polyak mains targs).length = mains.length ∧
    ∀ i, i < mains.length →
      (target_update polyak mains targs).getD i 0 =
        polyak * targs.getD i 0 + (1 - polyak) * mains.getD i 0 := by
  constructor
  · rw [target_update, List.length_zipWith, hlen, min_self]
  · exact target_update_getD polyak mains targs hlen

/-- Witness for C5, applied at a concrete factor and parameter lists. -/
theorem polyak_update_elementwise_applied :
    (target_update (1/2) [2, 4] [6, 8]).length = [(2 : ℚ), 4].length ∧
    (target_update (1/2) [2, 4] [6, 8]).getD 0 0 =
      (1/2) * ([(6 : ℚ), 8].getD 0 0) + (1 - 1/2) * ([(2 : ℚ), 4].getD 0 0) :=
  ⟨(polyak_update_elementwise (1/2) (by norm_num) [2, 4] [6, 8] (by decide)).1,
   (polyak_update_elementwise (1/2) (by norm_num) [2, 4] [6, 8] (by decide)).2 0 (by decide)⟩

/-- Trigger condition for copying the target network in update of
rlalgs/algos/dqn/dqn.py line 133:
t > 0 and (target_update_freq == 1 or t % (target_update_freq - 1) == 0),
where t is the within-epoch step counter. -/
def shouldCopyTarget (target_update_freq t : Nat) : Bool :=
  decide (0 < t) &&
    (decide (target_update_freq = 1) || decide (t % (target_update_freq - 1) = 0))

/-- Step effect of update on the target parameters in
rlalgs/algos/dqn/dqn.py: when the trigger fires, copy_network_weights
performs q_model_targ.set_weights(q_model.get_weights()), a hard exact
overwrite; otherwise the target parameters are untouched.  The polyak
argument of the surrounding dqn function is in scope but never used by
this code path, which the definition mirrors. -/
def algosTargetStep (polyak : ℚ) (target_update_freq t : Nat)
    (main targ : List ℚ) : List ℚ :=
  if shouldCopyTarget target_update_freq t then main else targ

/-- C4: evaluation of the trigger at the failing configuration
target_update_freq = 3.  The code copies at within-epoch steps 2 and 4
and does not copy at step 3, because the condition reduces the modulus by
one: copies happen every target_update_freq - 1 steps, contradicting the
claim (and the function's own docstring) that they happen once every
target_update_freq steps. -/
theorem target_copy_trigger_off_schedule :
    shouldCopyTarget 3 2 = true ∧
    shouldCopyTarget 3 3 = false ∧
    shouldCopyTarget 3 4 = true ∧
    algosTargetStep 0 3 3 [1] [2] = [2] ∧
    algosTargetStep 0 3 2 [1] [2] = [1] ∧
    shouldCopyTarget 2 1 = true ∧ shouldCopyTarget 2 2 = true := by
  refine ⟨rfl, rfl, rfl, ?_, ?_, rfl, rfl⟩ <;> decide

/-- C9: in the step-granularity trainer of rlalgs/algos/dqn/dqn.py the
configured polyak value has no effect: whatever its value (including
positive ones), a triggered update overwrites the target with an exact
copy of the main parameters, and no exponential-moving-average
interpolation is applied (at polyak = 995/1000 the hard copy visibly
differs from the Polyak interpolation computed by target_update). -/
theorem step_trainer_polyak_no_effect (p q : ℚ) (target_update_freq t : Nat)
    (main targ : List ℚ) :
    algosTargetStep p target_update_freq t main targ =
      algosTargetStep q target_update_freq t main targ ∧
    (shouldCopyTarget target_update_freq t = true →
      algosTargetStep p target_update_freq t main targ = main) ∧
    (shouldCopyTarget target_update_freq t = false →
      algosTargetStep p target_update_freq t main targ = targ) ∧
    algosTargetStep (995/1000) 1 1 [1] [3] = [1] ∧
    target_update (995/1000) [1] [3] = [299/100] := by
  refine ⟨rfl, ?_, ?_, by decide, ?_⟩
  · intro h; rw [algosTargetStep, if_pos h]
  · intro h; rw [algosTargetStep, h]; rfl
  · show [(995 : ℚ)/1000 * 3 + (1 - 995/1000) * 1] = [299/100]
    norm_num

/-- Witness for C9, applied at concrete values. -/
theorem step_trainer_polyak_no_effect_applied :
    algosTargetStep (1/2) 3 2 [5] [7] = [5] ∧
    algosTargetStep (1/2) 3 3 [5] [7] = [7] :=
  ⟨(step_trainer_polyak_no_effect (1/2) 0 3 2 [5] [7]).2.1 (by decide),
   (step_trainer_polyak_no_effect (1/2) 0 3 3 [5] [7]).2.2.1 (by decide)⟩

/-- Configuration errors the dqn function of rlalgs/algos/dqn/dqn.py 
can raise during setup. -/
inductive DQNConfigError where
  | assertionError
  | notImplementedError
deriving DecidableEq

/-- Setup prefix of the dqn function of rlalgs/algos/dqn/dqn.py: the
assert target_update_freq <= epoch_steps at line 57 runs first, before
the environment is even created; the Discrete action-space check at lines
73-74 runs right after env_fn(), before any env.reset() or env.step().
A .ok result means setup finished and training may start; either error
aborts before any environment reset or step occurs. -/
def dqnSetup (epoch_steps target_update_freq : Nat)
    (discreteActionSpace : Bool) : Except DQNConfigError Unit :=
  if ¬ target_update_freq ≤ epoch_steps then .error .assertionError
  else if ¬ discreteActionSpace then .error .notImplementedError
  else .ok ()

/-- C6: both configuration errors are fatal at setup time: a
target_update_freq above epoch_steps trips the assert (even before the
environment exists), a non-discrete action space raises
NotImplementedError before any reset or step, setup succeeds exactly
when neither applies, and the concrete scenario epoch_steps = 100,
target_update_freq = 200 fails with the assertion error. -/
theorem config_errors_fail_at_setup (epoch_steps target_update_freq : Nat)
    (discreteActionSpace : Bool) :
    (epoch_steps < target_update_freq →
      dqnSetup epoch_steps target_update_freq discreteActionSpace =
        .error .assertionError) ∧
    (target_update_freq ≤ epoch_steps → discreteActionSpace = false →
      dqnSetup epoch_steps target_update_freq discreteActionSpace =
        .error .notImplementedError) ∧
    (dqnSetup epoch_steps target_update_freq discreteActionSpace = .ok () ↔
      target_update_freq ≤ epoch_steps ∧ discreteActionSpace = true) ∧
    dqnSetup 100 200 discreteActionSpace = .error .assertionError := by
  refine ⟨?_, ?_, ?_, ?_⟩
  · intro h
    rw [dqnSetup, if_pos (by omega)]
  · intro h hd
    rw [dqnSetup, if_neg (by omega), hd]
    rfl
  · constructor
    · intro h
      by_cases h1 : target_update_freq ≤ epoch_steps
      · cases discreteActionSpace with
        | false => rw [dqnSetup, if_neg (by omega)] at h; simp at h
        | true => exact ⟨h1, rfl⟩
      · rw [dqnSetup, if_pos (by omega)] at h
        simp at h
    · rintro ⟨h1, h2⟩
      rw [dqnSetup, if_neg (by omega), h2]
      rfl
  · rw [dqnSetup, if_pos (by omega)]

/-- Witness for C6, applied at the concrete failing and succeeding
configurations. -/
theorem config_errors_fail_at_setup_applied :
    dqnSetup 100 200 true = .error .assertionError ∧
    dqnSetup 10 5 false = .error .notImplementedError :=
  ⟨(config_errors_fail_at_setup 100 200 true).1 (by omega),
   (config_errors_fail_at_setup 10 5 false).2.1 (by omega) rfl⟩

/-- C7: for index draws in [0, size) — the contract of
np.random.choice(size, n) — sample returns exactly one row per drawn
index, and every returned row is a currently stored transition (one of
the min(number of stores, capacity) most recent ones, never an unwritten
slot); moreover after at least one store the size is at least 1, which is
why the trainer, storing before every update call, never samples an empty
buffer. -/
theorem sample_returns_stored_rows (α : Type) [Inhabited α] (c : Nat)
    (hc : 1 ≤ c) (ts : List α) (hts : ts ≠ []) (idxs : List Nat)
    (hidx : ∀ i ∈ idxs, i < (trainedBuffer α c ts).size) :
    ((trainedBuffer α c ts).sample idxs).length = idxs.length ∧
    1 ≤ (trainedBuffer α c ts).size ∧
    ∀ x ∈ (trainedBuffer α c ts).sample idxs,
      ∃ k, ts.length - min ts.length c ≤ k ∧ k < ts.length ∧
        x = ts.getD k default := by
  obtain ⟨hcap, hlen, hptr, hsize, hslot⟩ := storeAll_spec α c hc ts
  refine ⟨by simp [DQNReplayBuffer.sample], ?_, ?_⟩
  · rw [hsize]
    have : 1 ≤ ts.length := List.length_pos.mpr hts
    omega
  · intro x hx
    rw [DQNReplayBuffer.sample, List.mem_map] at hx
    obtain ⟨i, hi, hxi⟩ := hx
    have hiscope := hidx i hi
    rw [hsize] at hiscope
    have hic : i < c := by omega
    refine ⟨lastWrite ts.length c i, mem_window_bound c ts.length i hc hiscope,
      lastWrite_lt c ts.length i hiscope, ?_⟩
    rw [← hxi, hslot i hic, if_pos hiscope]

/-- Witness for C7, applied at a concrete buffer and draw. -/
theorem sample_returns_stored_rows_applied :
    ((trainedBuffer ℤ 2 [10, 20, 30]).sample [0, 1, 1]).length = [0, 1, 1].length ∧
    1 ≤ (trainedBuffer ℤ 2 [10, 20, 30]).size ∧
    ∀ x ∈ (trainedBuffer ℤ 2 [10, 20, 30]).sample [0, 1, 1],
      ∃ k, [(10 : ℤ), 20, 30].length - min [(10 : ℤ), 20, 30].length 2 ≤ k ∧
        k < [(10 : ℤ), 20, 30].length ∧ x = [(10 : ℤ), 20, 30].getD k default :=
  sample_returns_stored_rows ℤ 2 (by decide) [10, 20, 30] (by decide) [0, 1, 1]
    (by decide)

/-- Episode-length bookkeeping of train_one_epoch in
rlalgs/algos/dqn/dqn.py lines 159-188, as a function of the per-step done
flags reported by the environment.  Each loop iteration increments
ep_len; on done it appends the finished episode length and resets ep_len
to 0; once t reaches epoch_steps the loop appends the in-progress ep_len
and breaks.  The fuel argument counts the iterations still to run
(epoch_steps - t); the source loop always runs its body at least once
before the budget check, reflected in the base cases. -/
def epochLensGo (dones : Nat → Bool) : Nat → Nat → Nat → List Nat → List Nat
  | 0, t, ep_len, acc =>
    if dones t then acc ++ [ep_len + 1, 0] else acc ++ [ep_len + 1]
  | 1, t, ep_len, acc =>
    if dones t then acc ++ [ep_len + 1, 0] else acc ++ [ep_len + 1]
  | fuel + 2, t, ep_len, acc =>
    if dones t then epochLensGo dones (fuel + 1) (t + 1) 0 (acc ++ [ep_len + 1])
    else epochLensGo dones (fuel + 1) (t + 1) (ep_len + 1) acc

/-- Episode-length list produced by one epoch of epoch_steps steps. -/
def trainOneEpochLens (epoch_steps : Nat) (dones : Nat → Bool) : List Nat :=
  epochLensGo dones epoch_steps 0 0 []

/-- The accumulator of epochLensGo is a pure prefix. -/
theorem epochLensGo_append (dones : Nat → Bool) :
    ∀ fuel t ep_len acc, epochLensGo dones fuel t ep_len acc =
      acc ++ epochLensGo dones fuel t ep_len [] := by
  intro fuel
  induction fuel with
  | zero =>
    intro t ep_len acc
    rw [epochLensGo, epochLensGo]
    split <;> simp
  | succ n ih =>
    match n with
    | 0 =>
      intro t ep_len acc
      rw [epochLensGo, epochLensGo]
      split <;> simp
    | m + 1 =>
      intro t ep_len acc
      rw [epochLensGo, epochLensGo]
      split
      · rw [ih (t + 1) 0 (acc ++ [ep_len + 1]), ih (t + 1) 0 ([] ++ [ep_len + 1])]
        simp
      · rw [ih (t + 1) (ep_len + 1) acc]

/-- Number of entries produced by a run of epochLensGo: one per done flag
seen during the fuel steps starting at t, plus the final in-progress
entry. -/
theorem epochLensGo_length (dones : Nat → Bool) :
    ∀ fuel t ep_len, 1 ≤ fuel →
      (epochLensGo dones fuel t ep_len []).length =
        (List.range' t fuel).countP dones + 1 := by
  intro fuel
  induction fuel with
  | zero => intro t ep_len h; omega
  | succ n ih =>
    match n with
    | 0 =>
      intro t ep_len _
      rw [epochLensGo]
      simp only [List.range'_succ, List.range', List.countP_cons, List.countP_nil]
      split <;> rename_i h <;> simp [h]
    | m + 1 =>
      intro t ep_len _
      rw [epochLensGo]
      have hrange : List.range' t (m + 2) = t :: List.range' (t + 1) (m + 1) :=
        List.range'_succ t (m + 1) 1
      rw [hrange, List.countP_cons]
      split <;> rename_i h
      · rw [List.nil_append,
          epochLensGo_append dones (m + 1) (t + 1) 0 [ep_len + 1]]
        simp only [List.length_append, List.length_cons, List.length_nil]
        rw [ih (t + 1) 0 (by omega)]
        omega
      · rw [ih (t + 1) (ep_len + 1) (by omega)]

/-- If the environment reports done at the last step of the budget, the
final entry of the episode-length list is 0. -/
theorem epochLensGo_getLast (dones : Nat → Bool) :
    ∀ fuel t ep_len, 1 ≤ fuel → dones (t + fuel - 1) = true →
      (epochLensGo dones fuel t ep_len []).getLast? = some 0 := by
  intro fuel
  induction fuel with
  | zero => intro t ep_len h; omega
  | succ n ih =>
    match n with
    | 0 =>
      intro t ep_len _ hdone
      have ht : dones t = true := by simpa using hdone
      rw [epochLensGo, if_pos ht]
      rfl
    | m + 1 =>
      intro t ep_len _ hdone
      have hdone2 : dones (t + 1 + (m + 1) - 1) = true := by
        have harg : t + 1 + (m + 1) - 1 = t + (m + 2) - 1 := by omega
        rw [harg]; exact hdone
      have hrec0 := ih (t + 1) 0 (by omega) hdone2
      have hrec1 := ih (t + 1) (ep_len + 1) (by omega) hdone2
      rw [epochLensGo]
      split
      · rw [List.nil_append,
          epochLensGo_append dones (m + 1) (t + 1) 0 [ep_len + 1],
          List.getLast?_append, hrec0]
        rfl
      · exact hrec1

/-- C10: when the environment reports done on exactly the step that
exhausts the per-epoch step budget, the episode-length list gets, besides
every completed episode's length, one extra trailing entry equal to 0 for
the empty in-progress episode, so the list has one more entry than the
number of episodes actually completed during the epoch. -/
theorem epoch_end_done_extra_zero_episode (epoch_steps : Nat)
    (hes : 1 ≤ epoch_steps) (dones : Nat → Bool)
    (hdone : dones (epoch_steps - 1) = true) :
    (trainOneEpochLens epoch_steps dones).getLast? = some 0 ∧
    (trainOneEpochLens epoch_steps dones).length =
      (List.range epoch_steps).countP dones + 1 := by
  constructor
  · exact epochLensGo_getLast dones epoch_steps 0 0 hes
      (by simpa using hdone)
  · rw [trainOneEpochLens, epochLensGo_length dones epoch_steps 0 0 hes,
      List.range_eq_range']

/-- Witness for C10: a three-step epoch whose environment finishes an
episode at step 1 and again at the final step 2 records lengths [2, 1, 0]
— the trailing 0 makes three entries for two played episodes. -/
theorem epoch_end_done_extra_zero_episode_applied :
    (trainOneEpochLens 3 (fun t => t == 1 || t == 2)).getLast? = some 0 ∧
    (trainOneEpochLens 3 (fun t => t == 1 || t == 2)).length =
      (List.range 3).countP (fun t => t == 1 || t == 2) + 1 :=
  epoch_end_done_extra_zero_episode 3 (by omega) (fun t => t == 1 || t == 2) rfl
